import Mathlib

/-!
# Verification of the FIDE-Google Efficient Chess AI agent

Shallow embedding of the decision-making core of the repository's two
near-duplicate agent variants:

* `main.py` — the python-chess variant (`ChessAgent.evaluate_position`,
  `ChessAgent.get_best_move` with its inner `minimax`, and `agent`);
* `chessnut_submission.py` — the chessnut variant of the same three pieces.

The rules engine (legal-move enumeration, move application, terminal
detection) is an external collaborator of the core; it is modelled as an
abstract interface (`Rules`), exactly the queries the Python code makes.
Python float scores (which take the values `float('-inf')`/`float('inf')`
as alpha-beta window bounds) are modelled by `EInt`, integers extended
with a bottom and a top element.
-/

/-- Scores with `-inf` and `+inf`: the values Python float arithmetic takes
in this program (the evaluators only produce integers; the infinities enter
only as initial accumulators and window bounds). -/
abbrev EInt := WithBot (WithTop ℤ)

/-- Embeds a finite evaluator score into the extended score type. -/
def toE (n : ℤ) : EInt := ((n : WithTop ℤ) : EInt)

/-- The rules-engine interface consumed by the agent code: exactly the
queries the Python source makes of `chess.Board` / `chessnut.Game`.
`turn p = true` means White (the fixed maximizing side of the evaluator,
which scores from White's perspective) is to move. -/
structure Rules (Pos Move : Type) where
  legalMoves : Pos → List Move
  apply : Pos → Move → Pos
  isGameOver : Pos → Bool
  turn : Pos → Bool
  eval : Pos → ℤ

/-- The per-variant parameters of the shared `minimax` recursion.  The two
Python variants differ only in: the extra leaf test (`board.is_game_over()`
in main.py, absent in the chessnut variant), the value returned when the
move list is empty (main.py falls through its `for` loop over an empty
iterable, yielding its `float('-inf')`/`float('inf')` accumulator; the
chessnut variant returns `-20000 if maximizing else 20000` before the
loop), and the initial `best_move` (`None` in main.py, `moves[0]` in the
chessnut variant). -/
structure SearchVariant (Pos Move : Type) where
  legalMoves : Pos → List Move
  apply : Pos → Move → Pos
  isLeaf : Pos → Bool
  eval : Pos → ℤ
  emptyVal : Bool → EInt
  initBest : Move → Option Move

/-- The maximizing branch of the alpha-beta loop, common to both sources:

    for move in moves:
        eval_score, _ = minimax(child(move), depth - 1, alpha, beta, False)
        if eval_score > max_eval:
            max_eval = eval_score
            best_move = move
        alpha = max(alpha, eval_score)
        if beta <= alpha:
            break
    return max_eval, best_move

`child mv a b` is the recursive search score of the position after `mv`
with window `(a, b)`.  (The chessnut variant wraps the body in
`try/except InvalidMove: continue`; move application is total here because
every move comes from the rules engine's own legal-move enumeration, the
§6/§7 collaborator contract, so the handler is dead.) -/
def abMax {Move : Type} (child : Move → EInt → EInt → EInt) (beta : EInt) :
    List Move → EInt → Option Move → EInt → EInt × Option Move
  | [], maxEval, best, _ => (maxEval, best)
  | mv :: rest, maxEval, best, alpha =>
    let s := child mv alpha beta
    let maxEval' := if maxEval < s then s else maxEval
    let best' := if maxEval < s then some mv else best
    let alpha' := max alpha s
    if beta ≤ alpha' then (maxEval', best')
    else abMax child beta rest maxEval' best' alpha'

/-- The minimizing branch of the alpha-beta loop, mirror of `abMax`
(`min_eval`, `beta = min(beta, eval_score)`, prune on `beta <= alpha`). -/
def abMin {Move : Type} (child : Move → EInt → EInt → EInt) (alpha : EInt) :
    List Move → EInt → Option Move → EInt → EInt × Option Move
  | [], minEval, best, _ => (minEval, best)
  | mv :: rest, minEval, best, beta =>
    let s := child mv alpha beta
    let minEval' := if s < minEval then s else minEval
    let best' := if s < minEval then some mv else best
    let beta' := min beta s
    if beta' ≤ alpha then (minEval', best')
    else abMin child alpha rest minEval' best' beta'

/-- The `minimax` recursion shared by both sources, instantiated per
variant through `SearchVariant`; compare `main.py` lines 81–113 and
`chessnut_submission.py` lines 92–134. -/
def minimaxGen {Pos Move : Type} (V : SearchVariant Pos Move) :
    Nat → Pos → EInt → EInt → Bool → EInt × Option Move
  | 0, p, _, _, _ => (toE (V.eval p), none)
  | d + 1, p, alpha, beta, mx =>
    if V.isLeaf p then (toE (V.eval p), none)
    else
      match V.legalMoves p with
      | [] => (V.emptyVal mx, none)
      | m0 :: rest =>
        if mx then
          abMax (fun mv a b => (minimaxGen V d (V.apply p mv) a b false).1) beta
            (m0 :: rest) ⊥ (V.initBest m0) alpha
        else
          abMin (fun mv a b => (minimaxGen V d (V.apply p mv) a b true).1) alpha
            (m0 :: rest) ⊤ (V.initBest m0) beta

/-- The `main.py` variant of `minimax`: leaf test `depth == 0 or board.is_game_over()`,
`best_move = None`, and an empty `board.legal_moves` iterable (only
reachable when the rules engine reports the game not over) leaves the
`float('-inf')` / `float('inf')` accumulator as the returned score. -/
def mainVariant {Pos Move : Type} (R : Rules Pos Move) : SearchVariant Pos Move where
  legalMoves := R.legalMoves
  apply := R.apply
  isLeaf := R.isGameOver
  eval := R.eval
  emptyVal := fun mx => if mx then ⊥ else ⊤
  initBest := fun _ => none

/-- The `chessnut_submission.py` variant of `minimax`: leaf test `depth == 0` only,
`if not moves: return -20000 if maximizing else 20000, None`, and
`best_move = moves[0]`.  Its child position `Game(game.get_fen())` with
`apply_move(move)` is the rules engine's move application. -/
def chessnutVariant {Pos Move : Type} (R : Rules Pos Move) : SearchVariant Pos Move where
  legalMoves := R.legalMoves
  apply := R.apply
  isLeaf := fun _ => false
  eval := R.eval
  emptyVal := fun mx => if mx then toE (-20000) else toE 20000
  initBest := fun m => some m

/-- The maximizing accumulation of an exhaustive (non-pruned) minimax:
the alpha-beta loop with the window bookkeeping and the
`if beta <= alpha: break` removed.  Modelled from the spec's words
("exhaustive (non-pruned) minimax at the same depth"). -/
def fullMax {Move : Type} (val : Move → EInt) :
    List Move → EInt → Option Move → EInt × Option Move
  | [], maxEval, best => (maxEval, best)
  | mv :: rest, maxEval, best =>
    let s := val mv
    fullMax val rest (if maxEval < s then s else maxEval)
      (if maxEval < s then some mv else best)

/-- Minimizing counterpart of `fullMax`. -/
def fullMin {Move : Type} (val : Move → EInt) :
    List Move → EInt → Option Move → EInt × Option Move
  | [], minEval, best => (minEval, best)
  | mv :: rest, minEval, best =>
    let s := val mv
    fullMin val rest (if s < minEval then s else minEval)
      (if s < minEval then some mv else best)

/-- Exhaustive minimax of the same depth with no pruning: the reference
the spec compares the alpha-beta search against.  Modelled from the spec:
identical recursion, every child explored, no alpha-beta window. -/
def minimaxFull {Pos Move : Type} (V : SearchVariant Pos Move) :
    Nat → Pos → Bool → EInt × Option Move
  | 0, p, _ => (toE (V.eval p), none)
  | d + 1, p, mx =>
    if V.isLeaf p then (toE (V.eval p), none)
    else
      match V.legalMoves p with
      | [] => (V.emptyVal mx, none)
      | m0 :: rest =>
        if mx then
          fullMax (fun mv => (minimaxFull V d (V.apply p mv) false).1) (m0 :: rest)
            ⊥ (V.initBest m0)
        else
          fullMin (fun mv => (minimaxFull V d (V.apply p mv) true).1) (m0 :: rest)
            ⊤ (V.initBest m0)

/-- Function `get_best_move` of `main.py` (line 115): the root call passes the
constant `True` as the maximizing flag, `float('-inf')`/`float('inf')` as
the window. -/
def getBestMoveMain {Pos Move : Type} (R : Rules Pos Move) (p : Pos) (d : Nat) :
    Option Move :=
  (minimaxGen (mainVariant R) d p ⊥ ⊤ true).2

/-- Function `get_best_move` of `chessnut_submission.py` (line 136): same constant
`True` root flag. -/
def getBestMoveChessnut {Pos Move : Type} (R : Rules Pos Move) (p : Pos) (d : Nat) :
    Option Move :=
  (minimaxGen (chessnutVariant R) d p ⊥ ⊤ true).2

/-!
## The evaluators

`evaluate_position` of each variant is a pure function of the rules-engine
queries it makes; those query results are captured as a record, so the
evaluator is embedded as a function of that record.
-/

/-- Piece kinds, as keyed by `piece_values` in both sources. -/
inductive PieceKind where
  | pawn | knight | bishop | rook | queen | king
deriving DecidableEq

open PieceKind in
/-- The `self.piece_values` mapping of both variants. -/
def pieceValue : PieceKind → ℤ
  | pawn => 100
  | knight => 320
  | bishop => 330
  | rook => 500
  | queen => 900
  | king => 20000

open PieceKind in
/-- Iteration order of `self.piece_values` in `main.py`'s material loop. -/
def allKinds : List PieceKind := [pawn, knight, bishop, rook, queen, king]

/-- The pawn piece-square table of `self.pst` (index 0 is the board's first
square in the rules engine's square order, i.e. a8 in FEN reading order). -/
def pstPawn : List ℤ :=
  [0,  0,  0,  0,  0,  0,  0,  0,
   50, 50, 50, 50, 50, 50, 50, 50,
   10, 10, 20, 30, 30, 20, 10, 10,
   5,  5, 10, 25, 25, 10,  5,  5,
   0,  0,  0, 20, 20,  0,  0,  0,
   5, -5,-10,  0,  0,-10, -5,  5,
   5, 10, 10,-20,-20, 10, 10,  5,
   0,  0,  0,  0,  0,  0,  0,  0]

/-- The knight piece-square table of `self.pst`. -/
def pstKnight : List ℤ :=
  [-50,-40,-30,-30,-30,-30,-40,-50,
   -40,-20,  0,  0,  0,  0,-20,-40,
   -30,  0, 10, 15, 15, 10,  0,-30,
   -30,  5, 15, 20, 20, 15,  5,-30,
   -30,  0, 15, 20, 20, 15,  0,-30,
   -30,  5, 10, 15, 15, 10,  5,-30,
   -40,-20,  0,  5,  5,  0,-20,-40,
   -50,-40,-30,-30,-30,-30,-40,-50]

/-- The `self.pst` dictionary as a partial map: `if piece_type in self.pst` is modelled by
the `Option`; only pawn and knight are present. -/
def pstOf : PieceKind → Option (List ℤ)
  | PieceKind.pawn => some pstPawn
  | PieceKind.knight => some pstKnight
  | _ => none

/-- The rules-engine query results `main.py`'s `evaluate_position` reads
from `chess.Board`: `board.turn` (`True` = White to move),
`board.is_checkmate()`, the per-kind piece counts
`len(board.pieces(piece_type, color))`, and `len(list(board.legal_moves))`. -/
structure PyBoard where
  turn : Bool
  isCheckmate : Bool
  whiteCount : PieceKind → ℕ
  blackCount : PieceKind → ℕ
  legalCount : ℕ

/-- The material pass of `main.py`'s `evaluate_position` (lines 70–72):
`score += len(white pieces) * value; score -= len(black pieces) * value`
for each of the six piece kinds. -/
def materialMain (b : PyBoard) : ℤ :=
  allKinds.foldl
    (fun s k => s + (b.whiteCount k : ℤ) * pieceValue k - (b.blackCount k : ℤ) * pieceValue k) 0

/-- The mobility term of `main.py`'s `evaluate_position` (line 75):
`len(list(board.legal_moves)) * (1 if board.turn else -1)`. -/
def mobilityMain (b : PyBoard) : ℤ :=
  (b.legalCount : ℤ) * (if b.turn then 1 else -1)

/-- Method `ChessAgent.evaluate_position` of `main.py` (lines 59–77): the
checkmate branch `return -20000 if board.turn else 20000`, else material
plus mobility.  (The `self.pst` tables are initialized by this variant but
never read by it.) -/
def evaluatePositionMain (b : PyBoard) : ℤ :=
  if b.isCheckmate then (if b.turn then -20000 else 20000)
  else materialMain b + mobilityMain b

/-- One square's content in the chessnut board string `game.board`:
`none` is the blank `' '`; otherwise the flag is `piece.isupper()`
(White) and the kind is `piece.lower()`. -/
abbrev SqPiece := Option (Bool × PieceKind)

/-- The rules-engine data `chessnut_submission.py`'s `evaluate_position`
reads: `game.board` (64 squares in the engine's square order),
`game.state.player == 'w'`, `len(list(game.get_moves()))`; `isCheckmate`
records the rules engine's checkmate judgement of the same position (it is
available from the engine but never read by this evaluator). -/
structure CGame where
  board : List SqPiece
  player : Bool
  movesCount : ℕ
  isCheckmate : Bool

/-- The per-square contribution of the chessnut variant's fused
material/piece-square loop (lines 64–74): value with sign by colour, plus
`pst[piece_type][i if is_white else 63 - i]` with sign by colour when the
kind is in `self.pst`. -/
def sqScore (i : ℕ) (sq : SqPiece) : ℤ :=
  match sq with
  | none => 0
  | some (isWhite, k) =>
    let value := pieceValue k
    let base := if isWhite then value else -value
    match pstOf k with
    | none => base
    | some table =>
      let sv := table.getD (if isWhite then i else 63 - i) 0
      base + (if isWhite then sv else -sv)

/-- Only the material part of `sqScore` (the `score += value if is_white
else -value` line). -/
def sqMaterial (sq : SqPiece) : ℤ :=
  match sq with
  | none => 0
  | some (isWhite, k) => if isWhite then pieceValue k else -pieceValue k

/-- Only the piece-square part of `sqScore`: `table[i]` for a White piece,
`-table[63 - i]` for a Black piece, `0` for kinds outside `self.pst`. -/
def sqPst (i : ℕ) (sq : SqPiece) : ℤ :=
  match sq with
  | none => 0
  | some (isWhite, k) =>
    match pstOf k with
    | none => 0
    | some table =>
      let sv := table.getD (if isWhite then i else 63 - i) 0
      if isWhite then sv else -sv

/-- The center-square pass of the chessnut evaluator (lines 80–86):
`score -= 10 if is_white else -10` for a pawn or knight on squares
27, 28, 35, 36. -/
def centerTerm (board : List SqPiece) : ℤ :=
  ([27, 28, 35, 36] : List ℕ).foldl
    (fun s sq =>
      match board.getD sq none with
      | some (isWhite, k) =>
        if k = PieceKind.pawn ∨ k = PieceKind.knight then
          s - (if isWhite then 10 else -10)
        else s
      | none => s) 0

/-- The mobility term of the chessnut evaluator (lines 77–78). -/
def mobilityChessnut (g : CGame) : ℤ :=
  if g.player then (g.movesCount : ℤ) else -(g.movesCount : ℤ)

/-- Method `ChessAgent.evaluate_position` of `chessnut_submission.py`
(lines 55–88): one pass over `enumerate(board)` accumulating material and
piece-square contributions, then the mobility term, then the center-square
pass.  There is no checkmate branch in this variant. -/
def evaluatePositionChessnut (g : CGame) : ℤ :=
  g.board.enum.foldl (fun s p => s + sqScore p.1 p.2) 0
    + mobilityChessnut g
    + centerTerm g.board

/-!
## The iterative-deepening controller

`agent` of both variants.  The wall-clock test
`time.time() - start_time < time_limit` is an external observation; it is
modelled by an oracle `timeOk : ℕ → Bool` giving the outcome of the check
made before attempting a given depth.  The `try/except Exception: break`
around one depth's search is modelled by letting the per-depth search
return `Except Unit (Option Move)`.  The `while ... and depth <= 4` loop
is embedded with explicit fuel; fuel `f` with current depth `d` maintains
`f + d = 5`, so fuel `0` is exactly `depth <= 4` failing. -/

/-- The update `if move: best_move = move` (a returned move is never falsy here). -/
def updBest {Move : Type} (best : Option Move) (mv : Option Move) : Option Move :=
  match mv with
  | some m => some m
  | none => best

/-- The iterative-deepening `while` loop shared by both `agent`s
(`main.py` lines 139–146, `chessnut_submission.py` lines 160–167),
returning the final `best_move` and the final value of `depth`. -/
def idLoop {Move : Type} (timeOk : ℕ → Bool) (search : ℕ → Except Unit (Option Move)) :
    ℕ → ℕ → Option Move → Option Move × ℕ
  | 0, d, best => (best, d)
  | f + 1, d, best =>
    if timeOk d then
      match search d with
      | Except.error _ => (best, d)
      | Except.ok mv => idLoop timeOk search f (d + 1) (updBest best mv)
    else (best, d)

/-- Function `agent` of `main.py` (lines 118–149).  The final
`best_move.uci() if best_move else list(board.legal_moves)[0].uci()`
raises `IndexError` when there is no legal move; the raise is the
`Except.error` case. -/
def agentMain {Pos Move : Type} (R : Rules Pos Move) (timeOk : ℕ → Bool) (p : Pos) :
    Except Unit Move :=
  match (idLoop timeOk (fun d => Except.ok (getBestMoveMain R p d)) 4 1 none).1 with
  | some m => Except.ok m
  | none =>
    match R.legalMoves p with
    | [] => Except.error ()
    | m :: _ => Except.ok m

/-- Function `agent` of `chessnut_submission.py` (lines 139–174).  Its fallback is
`moves[0] if moves else None`: it returns `None` rather than raising. -/
def agentChessnut {Pos Move : Type} (R : Rules Pos Move) (timeOk : ℕ → Bool) (p : Pos) :
    Option Move :=
  match (idLoop timeOk (fun d => Except.ok (getBestMoveChessnut R p d)) 4 1 none).1 with
  | some m => some m
  | none => (R.legalMoves p).head?

/-!
## The stateful search of `main.py`

`main.py`'s `minimax` mutates the single `chess.Board`: `board.push(move)`
before the recursive call and `board.pop()` after it.  To state the frame
property, the board is threaded explicitly: every function returns the
board state it leaves behind. -/

/-- The rules-engine surface of the stateful `main.py` search:
`push` mutates the board by a move, `pop` reverts the last move. -/
structure MRules (Pos Move : Type) where
  legalMoves : Pos → List Move
  push : Pos → Move → Pos
  pop : Pos → Pos
  isGameOver : Pos → Bool
  eval : Pos → ℤ

/-- The maximizing loop of `main.py`'s `minimax` with the board threaded:
`board.push(move)`, recurse (receiving the board the recursion leaves
behind), `board.pop()`. -/
def stMax {Pos Move : Type} (M : MRules Pos Move)
    (next : Pos → EInt → EInt → (EInt × Option Move) × Pos) (beta : EInt) :
    List Move → Pos → EInt → Option Move → EInt → (EInt × Option Move) × Pos
  | [], p, maxEval, best, _ => ((maxEval, best), p)
  | mv :: rest, p, maxEval, best, alpha =>
    let r := next (M.push p mv) alpha beta
    let p' := M.pop r.2
    let s := r.1.1
    let maxEval' := if maxEval < s then s else maxEval
    let best' := if maxEval < s then some mv else best
    let alpha' := max alpha s
    if beta ≤ alpha' then ((maxEval', best'), p')
    else stMax M next beta rest p' maxEval' best' alpha'

/-- Minimizing counterpart of `stMax`. -/
def stMin {Pos Move : Type} (M : MRules Pos Move)
    (next : Pos → EInt → EInt → (EInt × Option Move) × Pos) (alpha : EInt) :
    List Move → Pos → EInt → Option Move → EInt → (EInt × Option Move) × Pos
  | [], p, minEval, best, _ => ((minEval, best), p)
  | mv :: rest, p, minEval, best, beta =>
    let r := next (M.push p mv) alpha beta
    let p' := M.pop r.2
    let s := r.1.1
    let minEval' := if s < minEval then s else minEval
    let best' := if s < minEval then some mv else best
    let beta' := min beta s
    if beta' ≤ alpha then ((minEval', best'), p')
    else stMin M next alpha rest p' minEval' best' beta'

/-- The `main.py` `minimax` with the mutated board threaded explicitly; the
second component is the board state the call leaves behind. -/
def minimaxState {Pos Move : Type} (M : MRules Pos Move) :
    Nat → Pos → EInt → EInt → Bool → (EInt × Option Move) × Pos
  | 0, p, _, _, _ => ((toE (M.eval p), none), p)
  | d + 1, p, alpha, beta, mx =>
    if M.isGameOver p then ((toE (M.eval p), none), p)
    else if mx then
      stMax M (fun q a b => minimaxState M d q a b false) beta
        (M.legalMoves p) p ⊥ none alpha
    else
      stMin M (fun q a b => minimaxState M d q a b true) alpha
        (M.legalMoves p) p ⊤ none beta

/-!
## Concrete instances

Small rules-engine instances and concrete board data used to evaluate the
embedded code at specific inputs. -/

/-- A two-move toy game: from position `0` the moves `1` and `2` lead to
positions `1` (evaluator score `5`, good for White) and `2` (score `-5`,
good for Black); Black is to move at position `0`. -/
def toyR : Rules ℕ ℕ where
  legalMoves := fun p => if p = 0 then [1, 2] else []
  apply := fun _ m => m
  isGameOver := fun _ => false
  turn := fun _ => false
  eval := fun p => if p = 1 then 5 else if p = 2 then -5 else 0

/-- A stalemate position's query data for `main.py`'s evaluator: Black to
move with no legal move, not checkmate (White: king and one pawn; Black:
bare king) — e.g. White Kb6, pawn a7, Black Ka8, Black to move. -/
def stalePB : PyBoard where
  turn := false
  isCheckmate := false
  whiteCount := fun k => if k = PieceKind.pawn ∨ k = PieceKind.king then 1 else 0
  blackCount := fun k => if k = PieceKind.king then 1 else 0
  legalCount := 0

/-- A rules-engine instance presenting exactly that stalemate: the game is
over, there are no legal moves, and the evaluator sees `stalePB`. -/
def staleR : Rules ℕ ℕ where
  legalMoves := fun _ => []
  apply := fun _ m => m
  isGameOver := fun _ => true
  turn := fun _ => false
  eval := fun _ => evaluatePositionMain stalePB

/-- A stateful toy instance whose positions record the move history, so
`push` is cons and `pop` removes the last pushed move. -/
def toyM : MRules (List ℕ) ℕ where
  legalMoves := fun _ => [1, 2]
  push := fun p m => m :: p
  pop := fun p => p.tail
  isGameOver := fun _ => false
  eval := fun p => (p.length : ℤ)

/-- White pawn square. -/
def wP : SqPiece := some (true, PieceKind.pawn)
/-- White knight square. -/
def wN : SqPiece := some (true, PieceKind.knight)
/-- White bishop square. -/
def wB : SqPiece := some (true, PieceKind.bishop)
/-- White rook square. -/
def wR : SqPiece := some (true, PieceKind.rook)
/-- White queen square. -/
def wQ : SqPiece := some (true, PieceKind.queen)
/-- White king square. -/
def wK : SqPiece := some (true, PieceKind.king)
/-- Black pawn square. -/
def bP : SqPiece := some (false, PieceKind.pawn)
/-- Black knight square. -/
def bN : SqPiece := some (false, PieceKind.knight)
/-- Black bishop square. -/
def bB : SqPiece := some (false, PieceKind.bishop)
/-- Black rook square. -/
def bR : SqPiece := some (false, PieceKind.rook)
/-- Black queen square. -/
def bQ : SqPiece := some (false, PieceKind.queen)
/-- Black king square. -/
def bK : SqPiece := some (false, PieceKind.king)
/-- Empty square. -/
def ee : SqPiece := none

/-- The fool's mate final position (1.f3 e5 2.g4 Qh4#), FEN
`rnb1kbnr/pppp1ppp/8/4p3/6Pq/5P2/PPPPP2P/RNBQKBNR w`: White to move,
checkmated, no legal move.  Board squares in FEN reading order
(index 0 = a8), as the chessnut engine stores them. -/
def foolsMate : CGame where
  board :=
    [bR, bN, bB, ee, bK, bB, bN, bR,
     bP, bP, bP, bP, ee, bP, bP, bP,
     ee, ee, ee, ee, ee, ee, ee, ee,
     ee, ee, ee, ee, bP, ee, ee, ee,
     ee, ee, ee, ee, ee, ee, wP, bQ,
     ee, ee, ee, ee, ee, wP, ee, ee,
     wP, wP, wP, wP, wP, ee, ee, wP,
     wR, wN, wB, wQ, wK, wB, wN, wR]
  player := true
  movesCount := 0
  isCheckmate := true

/-- A quiet middlegame placement: White king e1 (index 60), knight d4
(index 35), Black king e8 (index 4); nothing else. -/
def knightBoard : List SqPiece :=
  [ee, ee, ee, ee, bK, ee, ee, ee,
   ee, ee, ee, ee, ee, ee, ee, ee,
   ee, ee, ee, ee, ee, ee, ee, ee,
   ee, ee, ee, ee, ee, ee, ee, ee,
   ee, ee, ee, wN, ee, ee, ee, ee,
   ee, ee, ee, ee, ee, ee, ee, ee,
   ee, ee, ee, ee, ee, ee, ee, ee,
   ee, ee, ee, ee, wK, ee, ee, ee]

/-- Number of pieces of one colour and kind on a placement: what
`len(board.pieces(piece_type, color))` reports for that placement. -/
def countPieces (board : List SqPiece) (isWhite : Bool) (k : PieceKind) : ℕ :=
  (board.filter (fun sq => sq = some (isWhite, k))).length

/-- The `main.py` evaluator's query record for a given placement, side to
move, checkmate judgement and legal-move count. -/
def pyBoardOf (board : List SqPiece) (turn ck : Bool) (legal : ℕ) : PyBoard where
  turn := turn
  isCheckmate := ck
  whiteCount := countPieces board true
  blackCount := countPieces board false
  legalCount := legal

/-- The piece-square term the spec prescribes for a placement.  Modelled
from the spec: "add `table[square]` for each maximizing-side piece at that
square ... and subtract `table[mirrored square]` for each minimizing-side
piece", mirrored square = `63 - i`. -/
def pstTermSpec (board : List SqPiece) : ℤ :=
  (board.enum.map (fun p => sqPst p.1 p.2)).sum


/-- The fail-soft contract of an alpha-beta score `r` against the true
minimax value `v` for a window `(alpha, beta)`: exact inside the window,
an upper bound on `v` when failing low, a lower bound when failing high. -/
abbrev failSoftRel (r v alpha beta : EInt) : Prop :=
  (r ≤ alpha → v ≤ r) ∧ (alpha < r → r < beta → r = v) ∧ (beta ≤ r → r ≤ v)

/-- Supremum of the child values of a move list (`⊥` for no moves): the
score a maximizing `fullMax` pass accumulates. -/
def supVals {Move : Type} (val : Move → EInt) : List Move → EInt
  | [] => ⊥
  | mv :: rest => max (val mv) (supVals val rest)

/-- Infimum counterpart of `supVals`. -/
def infVals {Move : Type} (val : Move → EInt) : List Move → EInt
  | [] => ⊤
  | mv :: rest => min (val mv) (infVals val rest)

/-- The move (if any) a non-raising per-depth search produced. -/
def okVal {Move : Type} : Except Unit (Option Move) → Option Move
  | Except.ok mv => mv
  | Except.error _ => none

/-- Value of `best_move` after `k` completed loop iterations starting at depth `d`. -/
def foldBest {Move : Type} (s : ℕ → Except Unit (Option Move)) :
    ℕ → ℕ → Option Move → Option Move
  | 0, _, b => b
  | k + 1, d, b => foldBest s k (d + 1) (updBest b (okVal (s d)))

/-- A deadline oracle that has already elapsed before the loop starts. -/
def tNever : ℕ → Bool := fun _ => false

/-- A deadline oracle that never elapses. -/
def tAlways : ℕ → Bool := fun _ => true

/-- A deadline oracle that admits exactly the first two depths. -/
def tTwo : ℕ → Bool := fun j => decide (j ≤ 2)

/-- A per-depth search stub that completes at every depth, returning the
depth itself as the move. -/
def sId : ℕ → Except Unit (Option ℕ) := fun j => Except.ok (some j)

/-!
## Order helpers on `EInt`
-/

theorem if_lt_eq_max (a b : EInt) : (if a < b then b else a) = max a b := by
  rcases le_or_lt b a with h | h
  · simp [not_lt.mpr h, max_eq_left h]
  · simp [h, max_eq_right h.le]

theorem if_lt_eq_min (a b : EInt) : (if b < a then b else a) = min a b := by
  rcases le_or_lt a b with h | h
  · simp [not_lt.mpr h, min_eq_left h]
  · simp [h, min_eq_right h.le]

theorem failSoftRel_refl (r alpha beta : EInt) : failSoftRel r r alpha beta :=
  ⟨fun _ => le_refl r, fun _ _ => rfl, fun _ => le_refl r⟩

/-!
## Frame effect of the stateful `main.py` search (claim C6)
-/

theorem stMax_state {Pos Move : Type} (M : MRules Pos Move)
    (next : Pos → EInt → EInt → (EInt × Option Move) × Pos) (beta : EInt)
    (hnext : ∀ q a b, (next q a b).2 = q)
    (hpp : ∀ p mv, M.pop (M.push p mv) = p) :
    ∀ (ms : List Move) (p : Pos) (m : EInt) (b : Option Move) (alpha : EInt),
      (stMax M next beta ms p m b alpha).2 = p := by
  intro ms
  induction ms with
  | nil => intro p m b alpha; rfl
  | cons mv rest ih =>
    intro p m b alpha
    simp only [stMax, hnext, hpp]
    split
    · rfl
    · exact ih p _ _ _

theorem stMin_state {Pos Move : Type} (M : MRules Pos Move)
    (next : Pos → EInt → EInt → (EInt × Option Move) × Pos) (alpha : EInt)
    (hnext : ∀ q a b, (next q a b).2 = q)
    (hpp : ∀ p mv, M.pop (M.push p mv) = p) :
    ∀ (ms : List Move) (p : Pos) (m : EInt) (b : Option Move) (beta : EInt),
      (stMin M next alpha ms p m b beta).2 = p := by
  intro ms
  induction ms with
  | nil => intro p m b beta; rfl
  | cons mv rest ih =>
    intro p m b beta
    simp only [stMin, hnext, hpp]
    split
    · rfl
    · exact ih p _ _ _

/-- Claim C6: the search leaves its input position unchanged — under the
rules-engine contract that `pop` undoes `push` exactly, every
`push`/recurse/`pop` round trip of `main.py`'s `minimax` restores the
board, so the board state after any search call equals the board state at
entry, for every position, depth, window and maximizing flag. -/
theorem C6_search_preserves_position {Pos Move : Type} (M : MRules Pos Move)
    (hpp : ∀ p mv, M.pop (M.push p mv) = p) :
    ∀ (d : ℕ) (p : Pos) (alpha beta : EInt) (mx : Bool),
      (minimaxState M d p alpha beta mx).2 = p := by
  intro d
  induction d with
  | zero => intro p alpha beta mx; rfl
  | succ d ih =>
    intro p alpha beta mx
    simp only [minimaxState]
    split
    · rfl
    · split
      · exact stMax_state M _ beta (fun q a b => ih q a b false) hpp _ p _ _ _
      · exact stMin_state M _ alpha (fun q a b => ih q a b true) hpp _ p _ _ _

/-- Witness for C6 at a concrete instance: the history-recording toy rules
satisfy the `pop`/`push` contract definitionally, and a depth-2 search
from the position `[7]` returns with the position still `[7]`. -/
theorem C6_search_preserves_position_witness :
    (minimaxState toyM 2 [7] ⊥ ⊤ true).2 = [7] :=
  C6_search_preserves_position toyM (fun _ _ => rfl) 2 [7] ⊥ ⊤ true

/-!
## Legality of the returned move (claim C8)
-/

theorem abMax_best_mem {Move : Type} (child : Move → EInt → EInt → EInt) (beta : EInt) :
    ∀ (ms : List Move) (m : EInt) (b : Option Move) (alpha : EInt) (x : Move),
      (abMax child beta ms m b alpha).2 = some x → x ∈ ms ∨ b = some x := by
  intro ms
  induction ms with
  | nil => intro m b alpha x h; right; exact h
  | cons mv rest ih =>
    intro m b alpha x h
    simp only [abMax] at h
    split at h
    · split at h
      · left; simp only [Option.some.injEq] at h; simp [h]
      · right; exact h
    · rcases ih _ _ _ x h with h1 | h1
      · left; exact List.mem_cons_of_mem mv h1
      · split at h1
        · left; simp only [Option.some.injEq] at h1; simp [h1]
        · right; exact h1

theorem abMin_best_mem {Move : Type} (child : Move → EInt → EInt → EInt) (alpha : EInt) :
    ∀ (ms : List Move) (m : EInt) (b : Option Move) (beta : EInt) (x : Move),
      (abMin child alpha ms m b beta).2 = some x → x ∈ ms ∨ b = some x := by
  intro ms
  induction ms with
  | nil => intro m b beta x h; right; exact h
  | cons mv rest ih =>
    intro m b beta x h
    simp only [abMin] at h
    split at h
    · split at h
      · left; simp only [Option.some.injEq] at h; simp [h]
      · right; exact h
    · rcases ih _ _ _ x h with h1 | h1
      · left; exact List.mem_cons_of_mem mv h1
      · split at h1
        · left; simp only [Option.some.injEq] at h1; simp [h1]
        · right; exact h1

theorem minimaxGen_best_mem {Pos Move : Type} (V : SearchVariant Pos Move)
    (hInit : ∀ m0 x, V.initBest m0 = some x → x = m0) :
    ∀ (d : ℕ) (p : Pos) (alpha beta : EInt) (mx : Bool) (x : Move),
      (minimaxGen V d p alpha beta mx).2 = some x → x ∈ V.legalMoves p := by
  intro d p alpha beta mx x h
  cases d with
  | zero => exact absurd h (by simp [minimaxGen])
  | succ d =>
    rw [minimaxGen] at h
    split at h
    · exact absurd h (by simp)
    · rcases hL : V.legalMoves p with _ | ⟨m0, rest⟩ <;> rw [hL] at h <;> dsimp only at h
      · simp at h
      · split at h
        · rcases abMax_best_mem _ _ _ _ _ _ _ h with h1 | h1
          · exact h1
          · rw [hInit m0 x h1]; exact List.mem_cons_self m0 rest
        · rcases abMin_best_mem _ _ _ _ _ _ _ h with h1 | h1
          · exact h1
          · rw [hInit m0 x h1]; exact List.mem_cons_self m0 rest

/-- Claim C8: for depth at least 1, any move the search returns is an
element of the rules engine's legal-move enumeration for the searched
position, in both variants. -/
theorem C8_returned_move_legal {Pos Move : Type} (R : Rules Pos Move)
    (d : ℕ) (p : Pos) (alpha beta : EInt) (mx : Bool) (x : Move) (_hd : 1 ≤ d) :
    ((minimaxGen (mainVariant R) d p alpha beta mx).2 = some x → x ∈ R.legalMoves p) ∧
    ((minimaxGen (chessnutVariant R) d p alpha beta mx).2 = some x → x ∈ R.legalMoves p) :=
  ⟨fun h => minimaxGen_best_mem (mainVariant R) (fun _ _ hx => by cases hx) d p alpha beta mx x h,
   fun h => minimaxGen_best_mem (chessnutVariant R)
     (fun _ _ hx => by cases hx; rfl) d p alpha beta mx x h⟩

/-- Witness for C8: at depth 1 from the toy root, the maximizing search
returns move `1`, which is one of the two legal moves of the position. -/
theorem C8_returned_move_legal_witness : (1 : ℕ) ∈ toyR.legalMoves 0 :=
  (C8_returned_move_legal toyR 1 0 ⊥ ⊤ true 1 (le_refl 1)).1 (by decide)

/-!
## The iterative-deepening controller (claims C3, C7, C10)
-/

theorem idLoop_stop {Move : Type} (t : ℕ → Bool) (s : ℕ → Except Unit (Option Move))
    (f d : ℕ) (b : Option Move) (h : t d = false ∨ s d = Except.error ()) :
    idLoop t s f d b = (b, d) := by
  cases f with
  | zero => rfl
  | succ f =>
    rcases h with h | h
    · simp [idLoop, h]
    · simp [idLoop, h]

theorem idLoop_run {Move : Type} (t : ℕ → Bool) (s : ℕ → Except Unit (Option Move)) :
    ∀ (k f d : ℕ) (b : Option Move), k ≤ f →
      (∀ j, d ≤ j → j < d + k → t j = true ∧ ∃ mv, s j = Except.ok mv) →
      idLoop t s f d b = idLoop t s (f - k) (d + k) (foldBest s k d b) := by
  intro k
  induction k with
  | zero => intro f d b _ _; simp [foldBest]
  | succ k ih =>
    intro f d b hkf hyp
    cases f with
    | zero => omega
    | succ f =>
      obtain ⟨ht, mv, hs⟩ := hyp d (le_refl d) (by omega)
      have h1 : idLoop t s (f + 1) d b = idLoop t s f (d + 1) (updBest b mv) := by
        simp [idLoop, ht, hs]
      rw [h1]
      have h2 : foldBest s (k + 1) d b = foldBest s k (d + 1) (updBest b mv) := by
        simp [foldBest, okVal, hs]
      have h3 : f + 1 - (k + 1) = f - k := by omega
      have h4 : d + (k + 1) = (d + 1) + k := by omega
      rw [h2, h3, h4]
      exact ih f (d + 1) (updBest b mv) (by omega) (fun j hj1 hj2 => hyp j (by omega) (by omega))

theorem foldBest_last {Move : Type} (s : ℕ → Except Unit (Option Move)) (m : Move) :
    ∀ (k d : ℕ) (b : Option Move), s (d + k) = Except.ok (some m) →
      foldBest s (k + 1) d b = some m := by
  intro k
  induction k with
  | zero =>
    intro d b h
    simp only [Nat.add_zero] at h
    simp [foldBest, okVal, h, updBest]
  | succ k ih =>
    intro d b h
    have : foldBest s (k + 2) d b = foldBest s (k + 1) (d + 1) (updBest b (okVal (s d))) := rfl
    rw [this]
    exact ih (d + 1) _ (by rw [← h]; ring_nf)

/-- Claim C7: in a run of the iterative-deepening loop in which depths
`1..D` complete (the deadline check before each passed and the depth's
search did not raise) and the loop then stops (maximum depth reached,
deadline elapsed, or a failure at depth `D+1`), the loop's final depth
counter is exactly `D + 1` — the depth advanced by exactly one per
completed iteration — and `best_move` is the move returned by depth `D`,
the deepest completed depth: in particular a failure at depth `D + 1`
does not discard it.  When no depth completed, `best_move` is still
`None`. -/
theorem C7_iterative_deepening {Move : Type} (t : ℕ → Bool)
    (s : ℕ → Except Unit (Option Move)) (D : ℕ) (hD : D ≤ 4)
    (hrun : ∀ j, 1 ≤ j → j ≤ D → t j = true ∧ ∃ mv, s j = Except.ok mv)
    (hstop : D = 4 ∨ t (D + 1) = false ∨ s (D + 1) = Except.error ()) :
    (idLoop t s 4 1 none).2 = D + 1 ∧
    (∀ m, 1 ≤ D → s D = Except.ok (some m) → (idLoop t s 4 1 none).1 = some m) ∧
    (D = 0 → (idLoop t s 4 1 none).1 = none) := by
  have hrw : idLoop t s 4 1 none = idLoop t s (4 - D) (1 + D) (foldBest s D 1 none) :=
    idLoop_run t s D 4 1 none hD (fun j hj1 hj2 => hrun j hj1 (by omega))
  have hres : idLoop t s 4 1 none = (foldBest s D 1 none, 1 + D) := by
    rw [hrw]
    rcases hstop with h | h
    · subst h; rfl
    · exact idLoop_stop t s _ _ _ (by rw [Nat.add_comm 1 D]; exact h)
  refine ⟨by rw [hres]; omega, ?_, ?_⟩
  · intro m h1 hsD
    rw [hres]
    obtain ⟨k, hk⟩ : ∃ k, D = k + 1 := ⟨D - 1, by omega⟩
    subst hk
    exact foldBest_last s m k 1 none (by rw [Nat.add_comm 1 k]; exact hsD)
  · intro h0
    subst h0
    rw [hres]
    rfl

/-- Witness for C7: with a deadline oracle admitting depths 1 and 2 and a
search that completes at every depth returning the depth itself, the loop
stops with depth counter 3 and keeps depth 2's move. -/
theorem C7_iterative_deepening_witness :
    (idLoop tTwo sId 4 1 none).2 = 3 ∧ (idLoop tTwo sId 4 1 none).1 = some 2 := by
  have h := C7_iterative_deepening tTwo sId 2 (by omega)
    (fun j _ hj2 => ⟨decide_eq_true hj2, some j, rfl⟩) (Or.inr (Or.inl rfl))
  exact ⟨h.1, h.2.1 2 (by omega) rfl⟩

/-- Claim C3: whenever the position has at least one legal move, both
agents return a move and never raise: the loop's `best_move` when one was
set, and the first legal move of the position otherwise; in particular,
when the deadline has already elapsed before the loop starts, both return
the first legal move. -/
theorem C3_agent_returns_move {Pos Move : Type} (R : Rules Pos Move) (t : ℕ → Bool)
    (p : Pos) (m0 : Move) (ms : List Move) (hL : R.legalMoves p = m0 :: ms) :
    agentMain R t p =
      Except.ok (((idLoop t (fun d => Except.ok (getBestMoveMain R p d)) 4 1 none).1).getD m0) ∧
    agentChessnut R t p =
      some (((idLoop t (fun d => Except.ok (getBestMoveChessnut R p d)) 4 1 none).1).getD m0) ∧
    (t 1 = false →
      agentMain R t p = Except.ok m0 ∧ agentChessnut R t p = some m0) := by
  refine ⟨?_, ?_, ?_⟩
  · rw [agentMain]
    rcases hb : (idLoop t (fun d => Except.ok (getBestMoveMain R p d)) 4 1 none).1 with _ | m
    · rw [hL]; rfl
    · rfl
  · rw [agentChessnut]
    rcases hb : (idLoop t (fun d => Except.ok (getBestMoveChessnut R p d)) 4 1 none).1 with _ | m
    · rw [hL]; rfl
    · rfl
  · intro ht
    have hstop : ∀ s : ℕ → Except Unit (Option Move), idLoop t s 4 1 none = (none, 1) :=
      fun s => idLoop_stop t s 4 1 none (Or.inl ht)
    constructor
    · rw [agentMain, hstop, hL]
    · rw [agentChessnut, hstop, hL]
      rfl

/-- Witness for C3 at a concrete instance: the toy root has legal moves
`[1, 2]`, and with an already-elapsed deadline both agents return the
first legal move `1` without raising. -/
theorem C3_agent_returns_move_witness :
    agentMain toyR tNever 0 = Except.ok 1 ∧ agentChessnut toyR tNever 0 = some 1 := by
  have h := C3_agent_returns_move toyR tNever 0 1 [2] rfl
  exact h.2.2 rfl

theorem minimaxGen_empty_none {Pos Move : Type} (V : SearchVariant Pos Move)
    (d : ℕ) (p : Pos) (alpha beta : EInt) (mx : Bool) (hL : V.legalMoves p = []) :
    (minimaxGen V d p alpha beta mx).2 = none := by
  cases d with
  | zero => rfl
  | succ d =>
    rw [minimaxGen]
    split
    · rfl
    · rw [hL]

theorem idLoop_all_none {Move : Type} (t : ℕ → Bool) (s : ℕ → Except Unit (Option Move))
    (hs : ∀ d, s d = Except.ok none) :
    ∀ (f d : ℕ), (idLoop t s f d none).1 = none := by
  intro f
  induction f with
  | zero => intro d; rfl
  | succ f ih =>
    intro d
    rw [idLoop]
    split
    · rw [hs d]
      exact ih (d + 1)
    · rfl

/-- Claim C10: on a position with no legal move at all, the two variants'
agent entry points disagree and neither produces a move: the chessnut
variant returns `None`, while the python-chess variant raises
(`IndexError` from indexing the empty legal-move list). -/
theorem C10_agents_no_legal_moves {Pos Move : Type} (R : Rules Pos Move) (t : ℕ → Bool)
    (p : Pos) (hL : R.legalMoves p = []) :
    agentMain R t p = Except.error () ∧ agentChessnut R t p = none := by
  constructor
  · rw [agentMain,
      idLoop_all_none t _ (fun d => by
        rw [getBestMoveMain, minimaxGen_empty_none (mainVariant R) d p ⊥ ⊤ true hL]) 4 1, hL]
  · rw [agentChessnut,
      idLoop_all_none t _ (fun d => by
        rw [getBestMoveChessnut, minimaxGen_empty_none (chessnutVariant R) d p ⊥ ⊤ true hL]) 4 1,
      hL]
    rfl

/-- Witness for C10: the concrete stalemate instance has no legal moves,
the python-chess agent raises and the chessnut agent returns `None`. -/
theorem C10_agents_no_legal_moves_witness :
    agentMain staleR tAlways 0 = Except.error () ∧ agentChessnut staleR tAlways 0 = none :=
  C10_agents_no_legal_moves staleR tAlways 0 rfl

/-!
## The root maximizing flag (claim C1)
-/

/-- Claim C1 fails on the code: both `get_best_move`s pass the constant
`True` as the root maximizing flag.  At the toy root, Black is to move
(`turn = false`), yet both variants return move `1`, the move maximizing
the White-perspective score; the root search with the flag the claim
prescribes (`maximizingSide == sideToMove`, i.e. `turn`) returns move `2`
instead. -/
theorem C1_root_flag_constant :
    toyR.turn 0 = false ∧
    getBestMoveMain toyR 0 1 = some 1 ∧
    getBestMoveChessnut toyR 0 1 = some 1 ∧
    (minimaxGen (mainVariant toyR) 1 0 ⊥ ⊤ (toyR.turn 0)).2 = some 2 ∧
    (minimaxGen (chessnutVariant toyR) 1 0 ⊥ ⊤ (toyR.turn 0)).2 = some 2 := by
  decide

/-!
## The evaluators on checkmate (claim C4)
-/

/-- The claim "for every checkmate position, evaluate returns the king
sentinel" fails on the chessnut variant: on the fool's mate position
(White to move, checkmated) its `evaluate_position` has no checkmate
branch and returns the generic material/positional/mobility score `-60`,
not `-20000` (nor `20000`). -/
theorem C4_counterexample :
    foolsMate.isCheckmate = true ∧ foolsMate.player = true ∧
    evaluatePositionChessnut foolsMate = -60 ∧
    ((-60 : ℤ) ≠ -20000 ∧ (-60 : ℤ) ≠ 20000) := by
  decide

/-- Claim C4 amended: in the python-chess variant, `evaluate_position`
returns the king sentinel on every checkmate position — negated exactly
when the side to move is the maximizing side (White) — before and
untouched by the material/mobility terms; the chessnut variant's
`evaluate_position` has no checkmate branch at all (its result is
insensitive to the position's checkmate status). -/
theorem C4_checkmate_eval :
    (∀ b : PyBoard, b.isCheckmate = true →
      evaluatePositionMain b = (if b.turn then -20000 else 20000)) ∧
    (∀ (g : CGame) (c : Bool),
      evaluatePositionChessnut { g with isCheckmate := c } = evaluatePositionChessnut g) := by
  constructor
  · intro b h
    simp [evaluatePositionMain, h]
  · intro g c
    rfl

/-- Witness for C4 at a concrete checkmate: the fool's mate position seen
through the python-chess queries (White to move, checkmate) evaluates to
`-20000`. -/
theorem C4_checkmate_eval_witness :
    evaluatePositionMain (pyBoardOf foolsMate.board true true 0) = -20000 :=
  (C4_checkmate_eval).1 (pyBoardOf foolsMate.board true true 0) rfl

/-!
## The piece-square term (claim C5)
-/

theorem sqScore_decomp (i : ℕ) (sq : SqPiece) : sqScore i sq = sqMaterial sq + sqPst i sq := by
  rcases sq with _ | ⟨w, k⟩
  · rfl
  · rcases hk : pstOf k with _ | t <;> simp [sqScore, sqMaterial, sqPst, hk]

theorem score_fold_decomp :
    ∀ (l : List (ℕ × SqPiece)) (a : ℤ),
      l.foldl (fun s p => s + sqScore p.1 p.2) a
        = a + (l.map (fun q => sqMaterial q.2)).sum + (l.map (fun p => sqPst p.1 p.2)).sum := by
  intro l
  induction l with
  | nil => intro a; simp
  | cons x xs ih =>
    intro a
    simp only [List.foldl_cons]
    rw [ih]
    simp only [List.map_cons, List.sum_cons, sqScore_decomp]
    ring

/-- The claim fails on the python-chess variant: its `evaluate_position`
computes no piece-square term.  On a concrete placement (White king e1,
knight d4, Black king e8, White to move, 13 legal moves) the evaluator's
result differs from the claimed sum of its material and mobility terms
plus the prescribed piece-square term (the knight on d4 contributes 20). -/
theorem C5_counterexample :
    evaluatePositionMain (pyBoardOf knightBoard true false 13) ≠
      materialMain (pyBoardOf knightBoard true false 13) + pstTermSpec knightBoard +
        mobilityMain (pyBoardOf knightBoard true false 13) := by
  decide

/-- Claim C5 amended: the chessnut variant's `evaluate_position`
decomposes as material plus exactly the prescribed piece-square term
(`table[i]` added per White piece with a table for its kind, and
`table[63 - i]` subtracted per Black piece) plus its mobility and
center-square terms; the python-chess variant's `evaluate_position`
contains no piece-square term — off the checkmate branch it is material
plus mobility only. -/
theorem C5_pst_term :
    (∀ g : CGame, evaluatePositionChessnut g =
      (g.board.enum.map (fun q => sqMaterial q.2)).sum + pstTermSpec g.board
        + mobilityChessnut g + centerTerm g.board) ∧
    (∀ b : PyBoard, b.isCheckmate = false →
      evaluatePositionMain b = materialMain b + mobilityMain b) := by
  constructor
  · intro g
    rw [evaluatePositionChessnut, score_fold_decomp, pstTermSpec]
    ring
  · intro b h
    simp [evaluatePositionMain, h]

/-- Witness for C5 at concrete inputs: the decomposition evaluated on the
fool's mate position, and the python-chess evaluator on the stalemate
query record. -/
theorem C5_pst_term_witness :
    evaluatePositionChessnut foolsMate =
      (foolsMate.board.enum.map (fun q => sqMaterial q.2)).sum + pstTermSpec foolsMate.board
        + mobilityChessnut foolsMate + centerTerm foolsMate.board ∧
    evaluatePositionMain stalePB = materialMain stalePB + mobilityMain stalePB :=
  ⟨(C5_pst_term).1 foolsMate, (C5_pst_term).2 stalePB rfl⟩

/-!
## No legal moves during search (claim C9)
-/

/-- The claim's "sentinel score" fails on the python-chess variant: at the
concrete stalemate position (no legal moves, game over, White up a pawn)
its search at depth 3 returns the static evaluation `100` — not the
`±20000` sentinel and not `±∞`. -/
theorem C9_counterexample :
    staleR.legalMoves 0 = [] ∧
    (minimaxGen (mainVariant staleR) 3 0 ⊥ ⊤ false).1 = toE 100 ∧
    (toE 100 ≠ toE 20000 ∧ toE 100 ≠ toE (-20000) ∧
      toE 100 ≠ (⊥ : EInt) ∧ toE 100 ≠ (⊤ : EInt)) := by
  decide

/-- Claim C9 amended: at depth ≥ 1 on a position with no legal moves,
neither search recurses — each returns at once with no move; the chessnut
variant returns the `∓20000` sentinel by the maximizing flag, while the
python-chess variant returns the static evaluation when the rules engine
reports the game over (which is the sentinel exactly when the evaluator's
checkmate branch fires) and the `∓∞` loop accumulator in the defensive
not-game-over case. -/
theorem C9_no_moves_terminal {Pos Move : Type} (R : Rules Pos Move) (d : ℕ) (p : Pos)
    (alpha beta : EInt) (mx : Bool) (hd : 1 ≤ d) (hL : R.legalMoves p = []) :
    minimaxGen (chessnutVariant R) d p alpha beta mx
      = (if mx then toE (-20000) else toE 20000, none) ∧
    minimaxGen (mainVariant R) d p alpha beta mx
      = ((if R.isGameOver p then toE (R.eval p) else if mx then ⊥ else ⊤), none) := by
  obtain ⟨k, rfl⟩ : ∃ k, d = k + 1 := ⟨d - 1, by omega⟩
  constructor
  · simp [minimaxGen, chessnutVariant, hL]
  · rcases hgo : R.isGameOver p with _ | _ <;> simp [minimaxGen, mainVariant, hL, hgo]

/-- Witness for C9 at the concrete stalemate instance. -/
theorem C9_no_moves_terminal_witness :
    minimaxGen (chessnutVariant staleR) 3 0 ⊥ ⊤ false = (toE 20000, none) ∧
    minimaxGen (mainVariant staleR) 3 0 ⊥ ⊤ false = (toE (staleR.eval 0), none) := by
  have h := C9_no_moves_terminal staleR 3 0 ⊥ ⊤ false (by omega) rfl
  exact ⟨h.1, h.2⟩

/-!
## Alpha-beta equals exhaustive minimax (claim C2)

The proof follows the classical fail-soft argument: an alpha-beta score
is exact whenever it falls strictly inside the window, an upper bound on
the true value when it fails low, and a lower bound when it fails high
(`failSoftRel`); at the root, where the window is `(⊥, ⊤)` and the
running `alpha` coincides with the running `max_eval`, update decisions
of the pruned and the exhaustive loop coincide move by move, so score
and move agree.
-/

theorem abMax_cons {Move : Type} (child : Move → EInt → EInt → EInt) (beta : EInt)
    (mv : Move) (rest : List Move) (m : EInt) (b : Option Move) (alpha : EInt) :
    abMax child beta (mv :: rest) m b alpha =
      if beta ≤ max alpha (child mv alpha beta) then
        (max m (child mv alpha beta), if m < child mv alpha beta then some mv else b)
      else
        abMax child beta rest (max m (child mv alpha beta))
          (if m < child mv alpha beta then some mv else b) (max alpha (child mv alpha beta)) := by
  simp only [abMax, if_lt_eq_max]

theorem abMin_cons {Move : Type} (child : Move → EInt → EInt → EInt) (alpha : EInt)
    (mv : Move) (rest : List Move) (m : EInt) (b : Option Move) (beta : EInt) :
    abMin child alpha (mv :: rest) m b beta =
      if min beta (child mv alpha beta) ≤ alpha then
        (min m (child mv alpha beta), if child mv alpha beta < m then some mv else b)
      else
        abMin child alpha rest (min m (child mv alpha beta))
          (if child mv alpha beta < m then some mv else b) (min beta (child mv alpha beta)) := by
  simp only [abMin, if_lt_eq_min]

theorem fullMax_cons {Move : Type} (val : Move → EInt) (mv : Move) (rest : List Move)
    (m : EInt) (b : Option Move) :
    fullMax val (mv :: rest) m b =
      fullMax val rest (max m (val mv)) (if m < val mv then some mv else b) := by
  simp only [fullMax, if_lt_eq_max]

theorem fullMin_cons {Move : Type} (val : Move → EInt) (mv : Move) (rest : List Move)
    (m : EInt) (b : Option Move) :
    fullMin val (mv :: rest) m b =
      fullMin val rest (min m (val mv)) (if val mv < m then some mv else b) := by
  simp only [fullMin, if_lt_eq_min]

theorem abMax_ge {Move : Type} (child : Move → EInt → EInt → EInt) (beta : EInt) :
    ∀ (ms : List Move) (m : EInt) (b : Option Move) (alpha : EInt),
      m ≤ (abMax child beta ms m b alpha).1 := by
  intro ms
  induction ms with
  | nil => intro m b alpha; exact le_refl m
  | cons mv rest ih =>
    intro m b alpha
    rw [abMax_cons]
    split
    · exact le_max_left m _
    · exact le_trans (le_max_left m (child mv alpha beta)) (ih _ _ _)

theorem abMin_le {Move : Type} (child : Move → EInt → EInt → EInt) (alpha : EInt) :
    ∀ (ms : List Move) (m : EInt) (b : Option Move) (beta : EInt),
      (abMin child alpha ms m b beta).1 ≤ m := by
  intro ms
  induction ms with
  | nil => intro m b beta; exact le_refl m
  | cons mv rest ih =>
    intro m b beta
    rw [abMin_cons]
    split
    · exact min_le_left m _
    · exact le_trans (ih _ _ _) (min_le_left m (child mv alpha beta))

theorem fullMax_score {Move : Type} (val : Move → EInt) :
    ∀ (ms : List Move) (m : EInt) (b : Option Move),
      (fullMax val ms m b).1 = max m (supVals val ms) := by
  intro ms
  induction ms with
  | nil => intro m b; rw [supVals, max_eq_left bot_le]; rfl
  | cons mv rest ih =>
    intro m b
    rw [fullMax_cons, ih, supVals, max_assoc]

theorem fullMin_score {Move : Type} (val : Move → EInt) :
    ∀ (ms : List Move) (m : EInt) (b : Option Move),
      (fullMin val ms m b).1 = min m (infVals val ms) := by
  intro ms
  induction ms with
  | nil => intro m b; rw [infVals, min_eq_left le_top]; rfl
  | cons mv rest ih =>
    intro m b
    rw [fullMin_cons, ih, infVals, min_assoc]

theorem fullMax_top {Move : Type} (val : Move → EInt) :
    ∀ (ms : List Move) (b : Option Move), fullMax val ms ⊤ b = (⊤, b) := by
  intro ms
  induction ms with
  | nil => intro b; rfl
  | cons mv rest ih =>
    intro b
    rw [fullMax_cons, max_eq_left le_top, if_neg (not_top_lt)]
    exact ih b

theorem fullMin_bot {Move : Type} (val : Move → EInt) :
    ∀ (ms : List Move) (b : Option Move), fullMin val ms ⊥ b = (⊥, b) := by
  intro ms
  induction ms with
  | nil => intro b; rfl
  | cons mv rest ih =>
    intro b
    rw [fullMin_cons, min_eq_left bot_le, if_neg (not_lt_bot)]
    exact ih b

theorem abMax_failSoft {Move : Type} (child : Move → EInt → EInt → EInt) (val : Move → EInt)
    (beta : EInt)
    (H : ∀ mv a, a < beta → failSoftRel (child mv a beta) (val mv) a beta) :
    ∀ (ms : List Move) (m : EInt) (b : Option Move) (alpha : EInt),
      m ≤ alpha → alpha < beta →
      failSoftRel (abMax child beta ms m b alpha).1 (max m (supVals val ms)) alpha beta := by
  intro ms
  induction ms with
  | nil =>
    intro m b alpha _ _
    rw [supVals, max_eq_left bot_le]
    exact failSoftRel_refl m alpha beta
  | cons mv rest ih =>
    intro m b alpha hma hab
    have hrel := H mv alpha hab
    rw [abMax_cons, supVals]
    by_cases hbr : beta ≤ max alpha (child mv alpha beta)
    · rw [if_pos hbr]
      dsimp only
      have hbs : beta ≤ child mv alpha beta := by
        rcases le_max_iff.mp hbr with h | h
        · exact absurd h (not_le.mpr hab)
        · exact h
      have hsv : child mv alpha beta ≤ val mv := hrel.2.2 hbs
      have hbmax : beta ≤ max m (child mv alpha beta) := le_trans hbs (le_max_right m _)
      refine ⟨fun hle => absurd (le_trans hbmax hle) (not_le.mpr hab),
        fun _ h2 => absurd h2 (not_lt.mpr hbmax), fun _ => ?_⟩
      exact max_le_max (le_refl m) (le_trans hsv (le_max_left _ _))
    · rw [if_neg hbr]
      have has : max alpha (child mv alpha beta) < beta := not_le.mp hbr
      rcases le_or_lt (child mv alpha beta) alpha with hsa | hsa
      · have hva : val mv ≤ child mv alpha beta := hrel.1 hsa
        have hmaxa : max alpha (child mv alpha beta) = alpha := max_eq_left hsa
        have hmacc : max m (child mv alpha beta) ≤ alpha := max_le hma hsa
        rw [hmaxa]
        have ihh := ih (max m (child mv alpha beta))
          (if m < child mv alpha beta then some mv else b) alpha hmacc hab
        refine ⟨fun hle => ?_, fun h1 h2 => ?_, fun h3 => ?_⟩
        · refine le_trans (max_le ?_ (max_le ?_ ?_)) (ihh.1 hle)
          · exact le_trans (le_max_left m _) (le_max_left _ _)
          · exact le_trans hva (le_trans (le_max_right m _) (le_max_left _ _))
          · exact le_max_right _ _
        · have heq := ihh.2.1 h1 h2
          have h4 : max m (child mv alpha beta)
              < max (max m (child mv alpha beta)) (supVals val rest) := by
            rw [← heq]
            exact lt_of_le_of_lt hmacc h1
          have hS : max (max m (child mv alpha beta)) (supVals val rest) = supVals val rest := by
            rcases max_choice (max m (child mv alpha beta)) (supVals val rest) with h | h
            · rw [h] at h4; exact absurd h4 (lt_irrefl _)
            · exact h
          have haS : alpha < supVals val rest := by
            rw [heq, hS] at h1; exact h1
          rw [heq, hS, max_eq_right (le_trans hva (le_trans hsa haS.le)),
            max_eq_right (le_trans hma haS.le)]
        · have hle2 := ihh.2.2 h3
          rcases max_choice (max m (child mv alpha beta)) (supVals val rest) with h | h
          · rw [h] at hle2
            exact absurd (le_trans h3 (le_trans hle2 hmacc)) (not_le.mpr hab)
          · rw [h] at hle2
            exact le_trans hle2 (le_trans (le_max_right _ _) (le_max_right m _))
      · have hsb : child mv alpha beta < beta := lt_of_le_of_lt (le_max_right alpha _) has
        have heq1 : child mv alpha beta = val mv := hrel.2.1 hsa hsb
        have hms : max m (child mv alpha beta) = child mv alpha beta :=
          max_eq_right (le_trans hma hsa.le)
        have hmaxa : max alpha (child mv alpha beta) = child mv alpha beta :=
          max_eq_right hsa.le
        rw [hms, hmaxa]
        have hvmax : max m (max (val mv) (supVals val rest)) = max (val mv) (supVals val rest) :=
          max_eq_right (le_trans hma (le_trans hsa.le (heq1 ▸ le_max_left _ _)))
        rw [hvmax, ← heq1]
        have ihh := ih (child mv alpha beta)
          (if m < child mv alpha beta then some mv else b) (child mv alpha beta)
          (le_refl _) hsb
        refine ⟨fun hle => ?_, fun h1 h2 => ?_, fun h3 => ?_⟩
        · exact ihh.1 (le_trans hle hsa.le)
        · rcases le_or_lt (abMax child beta rest (child mv alpha beta)
              (if m < child mv alpha beta then some mv else b) (child mv alpha beta)).1
              (child mv alpha beta) with hrs | hrs
          · exact le_antisymm (le_trans hrs (le_max_left _ _)) (ihh.1 hrs)
          · exact ihh.2.1 hrs h2
        · exact ihh.2.2 h3

theorem abMin_failSoft {Move : Type} (child : Move → EInt → EInt → EInt) (val : Move → EInt)
    (alpha : EInt)
    (H : ∀ mv bb, alpha < bb → failSoftRel (child mv alpha bb) (val mv) alpha bb) :
    ∀ (ms : List Move) (m : EInt) (b : Option Move) (beta : EInt),
      beta ≤ m → alpha < beta →
      failSoftRel (abMin child alpha ms m b beta).1 (min m (infVals val ms)) alpha beta := by
  intro ms
  induction ms with
  | nil =>
    intro m b beta _ _
    rw [infVals, min_eq_left le_top]
    exact failSoftRel_refl m alpha beta
  | cons mv rest ih =>
    intro m b beta hbm hab
    have hrel := H mv beta hab
    rw [abMin_cons, infVals]
    by_cases hbr : min beta (child mv alpha beta) ≤ alpha
    · rw [if_pos hbr]
      dsimp only
      have hsa : child mv alpha beta ≤ alpha := by
        rcases min_le_iff.mp hbr with h | h
        · exact absurd h (not_le.mpr hab)
        · exact h
      have hvs : val mv ≤ child mv alpha beta := hrel.1 hsa
      have hmina : min m (child mv alpha beta) ≤ alpha := le_trans (min_le_right m _) hsa
      refine ⟨fun _ => ?_, fun h1 _ => absurd h1 (not_lt.mpr hmina),
        fun h3 => absurd (le_trans h3 hmina) (not_le.mpr hab)⟩
      exact le_min (min_le_left m _)
        (le_trans (le_trans (min_le_right m _) (min_le_left _ _)) hvs)
    · rw [if_neg hbr]
      have has : alpha < min beta (child mv alpha beta) := not_le.mp hbr
      rcases le_or_lt beta (child mv alpha beta) with hbs | hbs
      · have hsv : child mv alpha beta ≤ val mv := hrel.2.2 hbs
        have hminb : min beta (child mv alpha beta) = beta := min_eq_left hbs
        have hmacc : beta ≤ min m (child mv alpha beta) := le_min hbm hbs
        rw [hminb]
        have ihh := ih (min m (child mv alpha beta))
          (if child mv alpha beta < m then some mv else b) beta hmacc hab
        refine ⟨fun hle => ?_, fun h1 h2 => ?_, fun h3 => ?_⟩
        · have hle2 := ihh.1 hle
          rcases min_choice (min m (child mv alpha beta)) (infVals val rest) with h | h
          · rw [h] at hle2
            exact absurd (le_trans hmacc (le_trans hle2 hle)) (not_le.mpr hab)
          · rw [h] at hle2
            exact le_trans (le_trans (min_le_right m _) (min_le_right _ _)) hle2
        · have heq := ihh.2.1 h1 h2
          have h4 : min (min m (child mv alpha beta)) (infVals val rest)
              < min m (child mv alpha beta) := by
            rw [← heq]
            exact lt_of_lt_of_le h2 hmacc
          have hS : min (min m (child mv alpha beta)) (infVals val rest) = infVals val rest := by
            rcases min_choice (min m (child mv alpha beta)) (infVals val rest) with h | h
            · rw [h] at h4; exact absurd h4 (lt_irrefl _)
            · exact h
          have hSb : infVals val rest < beta := by
            rw [heq, hS] at h2; exact h2
          rw [heq, hS, min_eq_right (le_trans hSb.le (le_trans hbs hsv)),
            min_eq_right (le_trans hSb.le hbm)]
        · have hle2 := ihh.2.2 h3
          refine le_trans hle2 (le_min ?_ (le_min ?_ ?_))
          · exact le_trans (min_le_left _ _) (min_le_left m _)
          · exact le_trans (le_trans (min_le_left _ _) (min_le_right m _)) hsv
          · exact min_le_right _ _
      · have hsa : alpha < child mv alpha beta := lt_of_lt_of_le has (min_le_right beta _)
        have heq1 : child mv alpha beta = val mv := hrel.2.1 hsa hbs
        have hms : min m (child mv alpha beta) = child mv alpha beta :=
          min_eq_right (le_trans hbs.le hbm)
        have hminb : min beta (child mv alpha beta) = child mv alpha beta :=
          min_eq_right hbs.le
        rw [hms, hminb]
        have hvmin : min m (min (val mv) (infVals val rest)) = min (val mv) (infVals val rest) :=
          min_eq_right (le_trans (min_le_left _ _) (heq1 ▸ le_trans hbs.le hbm))
        rw [hvmin, ← heq1]
        have ihh := ih (child mv alpha beta)
          (if child mv alpha beta < m then some mv else b) (child mv alpha beta)
          (le_refl _) hsa
        refine ⟨fun hle => ?_, fun h1 h2 => ?_, fun h3 => ?_⟩
        · exact ihh.1 hle
        · rcases le_or_lt (child mv alpha beta)
              (abMin child alpha rest (child mv alpha beta)
                (if child mv alpha beta < m then some mv else b) (child mv alpha beta)).1
              with hrs | hrs
          · exact le_antisymm (ihh.2.2 hrs) (le_trans (min_le_left _ _) hrs)
          · exact ihh.2.1 h1 hrs
        · have hle3 := abMin_le child alpha rest (child mv alpha beta)
            (if child mv alpha beta < m then some mv else b) (child mv alpha beta)
          exact absurd (le_trans h3 hle3) (not_le.mpr hbs)

theorem abMax_root {Move : Type} (child : Move → EInt → EInt → EInt) (val : Move → EInt)
    (H : ∀ mv a, a < ⊤ → failSoftRel (child mv a ⊤) (val mv) a ⊤) :
    ∀ (ms : List Move) (m : EInt) (b : Option Move), m < ⊤ →
      abMax child ⊤ ms m b m = fullMax val ms m b := by
  intro ms
  induction ms with
  | nil => intro m b _; rfl
  | cons mv rest ih =>
    intro m b hm
    have hrel := H mv m hm
    rw [abMax_cons, fullMax_cons]
    rcases le_or_lt (child mv m ⊤) m with hsm | hms
    · have hvs : val mv ≤ child mv m ⊤ := hrel.1 hsm
      rw [max_eq_left hsm, if_neg (not_le.mpr hm), if_neg (not_lt.mpr hsm),
        max_eq_left (le_trans hvs hsm), if_neg (not_lt.mpr (le_trans hvs hsm))]
      exact ih m b hm
    · rcases lt_or_eq_of_le (le_top : child mv m ⊤ ≤ ⊤) with hst | hst
      · have heq := hrel.2.1 hms hst
        rw [max_eq_right hms.le, if_neg (not_le.mpr hst), if_pos hms, ← heq,
          max_eq_right hms.le, if_pos hms]
        exact ih (child mv m ⊤) (some mv) hst
      · have hvt : val mv = ⊤ := top_le_iff.mp (hst ▸ hrel.2.2 (le_of_eq hst.symm))
        rw [hst, hvt, max_eq_right le_top, if_pos (le_refl (⊤ : EInt)), if_pos hm,
          fullMax_top]
  
theorem abMin_root {Move : Type} (child : Move → EInt → EInt → EInt) (val : Move → EInt)
    (H : ∀ mv bb, ⊥ < bb → failSoftRel (child mv ⊥ bb) (val mv) ⊥ bb) :
    ∀ (ms : List Move) (m : EInt) (b : Option Move), ⊥ < m →
      abMin child ⊥ ms m b m = fullMin val ms m b := by
  intro ms
  induction ms with
  | nil => intro m b _; rfl
  | cons mv rest ih =>
    intro m b hm
    have hrel := H mv m hm
    rw [abMin_cons, fullMin_cons]
    rcases le_or_lt m (child mv ⊥ m) with hms | hsm
    · have hsv : child mv ⊥ m ≤ val mv := hrel.2.2 hms
      rw [min_eq_left hms, if_neg (not_le.mpr hm), if_neg (not_lt.mpr hms),
        min_eq_left (le_trans hms hsv), if_neg (not_lt.mpr (le_trans hms hsv))]
      exact ih m b hm
    · rcases lt_or_eq_of_le (bot_le : (⊥ : EInt) ≤ child mv ⊥ m) with hst | hst
      · have heq := hrel.2.1 hst hsm
        rw [min_eq_right hsm.le, if_neg (not_le.mpr hst), if_pos hsm, ← heq,
          min_eq_right hsm.le, if_pos hsm]
        exact ih (child mv ⊥ m) (some mv) hst
      · have hvb : val mv = ⊥ := le_bot_iff.mp (hst ▸ hrel.1 (le_of_eq hst.symm))
        rw [← hst, hvb, min_eq_right bot_le, if_pos (le_refl (⊥ : EInt)), if_pos hm,
          fullMin_bot]

theorem minimax_failSoft {Pos Move : Type} (V : SearchVariant Pos Move) :
    ∀ (d : ℕ) (p : Pos) (alpha beta : EInt) (mx : Bool), alpha < beta →
      failSoftRel (minimaxGen V d p alpha beta mx).1 (minimaxFull V d p mx).1 alpha beta := by
  intro d
  induction d with
  | zero => intro p alpha beta mx _; exact failSoftRel_refl _ _ _
  | succ d ih =>
    intro p alpha beta mx hab
    rw [minimaxGen, minimaxFull]
    by_cases hleaf : V.isLeaf p
    · rw [if_pos hleaf, if_pos hleaf]
      exact failSoftRel_refl _ _ _
    · rw [if_neg hleaf, if_neg hleaf]
      rcases hM : V.legalMoves p with _ | ⟨m0, rest⟩
      · exact failSoftRel_refl _ _ _
      · dsimp only
        split
        · rw [fullMax_score]
          exact abMax_failSoft _ _ beta (fun mv a ha => ih (V.apply p mv) a beta false ha)
            (m0 :: rest) ⊥ (V.initBest m0) alpha bot_le hab
        · rw [fullMin_score]
          exact abMin_failSoft _ _ alpha (fun mv bb hb => ih (V.apply p mv) alpha bb true hb)
            (m0 :: rest) ⊤ (V.initBest m0) beta le_top hab

theorem minimax_full_window {Pos Move : Type} (V : SearchVariant Pos Move)
    (d : ℕ) (p : Pos) (mx : Bool) :
    minimaxGen V d p ⊥ ⊤ mx = minimaxFull V d p mx := by
  cases d with
  | zero => rfl
  | succ d =>
    rw [minimaxGen, minimaxFull]
    by_cases hleaf : V.isLeaf p
    · rw [if_pos hleaf, if_pos hleaf]
    · rw [if_neg hleaf, if_neg hleaf]
      rcases hM : V.legalMoves p with _ | ⟨m0, rest⟩
      · rfl
      · dsimp only
        split
        · exact abMax_root _ _
            (fun mv a ha => minimax_failSoft V d (V.apply p mv) a ⊤ false ha)
            (m0 :: rest) ⊥ (V.initBest m0) bot_lt_top
        · exact abMin_root _ _
            (fun mv bb hb => minimax_failSoft V d (V.apply p mv) ⊥ bb true hb)
            (m0 :: rest) ⊤ (V.initBest m0) bot_lt_top

/-- Claim C2: for every rules-engine instance, position, depth and
maximizing flag, the alpha-beta search of either variant, called with the
full window `(-∞, +∞)` as `get_best_move` calls it, returns exactly the
(score, move) pair of the exhaustive minimax of the same depth with no
pruning. -/
theorem C2_alphabeta_eq_full_minimax {Pos Move : Type} (R : Rules Pos Move)
    (d : ℕ) (p : Pos) (mx : Bool) :
    minimaxGen (mainVariant R) d p ⊥ ⊤ mx = minimaxFull (mainVariant R) d p mx ∧
    minimaxGen (chessnutVariant R) d p ⊥ ⊤ mx = minimaxFull (chessnutVariant R) d p mx :=
  ⟨minimax_full_window (mainVariant R) d p mx,
   minimax_full_window (chessnutVariant R) d p mx⟩
